import Mathlib

/-!
Verification development for the 4-wide-combo Tetris decision engine.

The Go sources are shallowly embedded: machine integers become `Nat`/`Int`
with explicit wrap-around where the width matters, pointers that may be nil
become either `Option` or an explicit `nil` constructor, fallible
constructors return `Except`, and the concurrent builders are modelled by
their sequential data-flow (the parallel loops populate disjoint keys, so
the sequential fold computes the same result).

Layout:
* `Tetris`  — pieces, piece sets, packed sequences (`piece.go`, `seq.go`),
  and the prefix-trie sequence-set algebra (`seqset.go`).
* `Combo4`  — the 4x4 bitboard, the move catalogue, NFA states and
  transitions (`state.go`, `moves.go`).
* `Bot`     — the NFA scorer construction and score packing (`scorer.go`),
  the MDP transition structure (`mdp.go`), and the streaming game driver
  (`policy.go`).
-/

namespace Tetris

/-- `Piece` is a tag 0..7: 0 = EmptyPiece, then T L J S Z O I (Go `Piece uint8`). -/
abbrev Piece := Nat

def EmptyPiece : Piece := 0
def T : Piece := 1
def L : Piece := 2
def J : Piece := 3
def S : Piece := 4
def Z : Piece := 5
def O : Piece := 6
def I : Piece := 7

/-- Canonical ordering of the 7 non-empty pieces (Go `NonemptyPieces`). -/
def NonemptyPieces : List Piece := [T, L, J, S, Z, O, I]

/-- A sequence element is valid when it is one of the 7 non-empty pieces. -/
def ValidPiece (p : Piece) : Prop := 1 ≤ p ∧ p ≤ 7

instance (p : Piece) : Decidable (ValidPiece p) := by
  unfold ValidPiece; infer_instance

/-- All elements of a piece list are non-empty pieces. -/
def ValidSeq (l : List Piece) : Prop := ∀ p ∈ l, ValidPiece p

instance (l : List Piece) : Decidable (ValidSeq l) := by
  unfold ValidSeq; infer_instance

/-- `PieceSet` is a bitmask over piece tags (Go `PieceSet uint8`);
bit `p` is set iff piece `p` is in the set. -/
abbrev PieceSet := Nat

/-- Go `Piece.PieceSet`: the singleton bitmask `1 << p`. -/
def Piece.pieceSet (p : Piece) : PieceSet := 1 <<< p

/-- Go `PieceSet.Add`. -/
def PieceSet.Add (ps : PieceSet) (p : Piece) : PieceSet := ps ||| p.pieceSet

/-- Go `PieceSet.Union`. -/
def PieceSet.Union (ps other : PieceSet) : PieceSet := ps ||| other

/-- Go `PieceSet.Contains`: `ps & p.PieceSet() != 0`. -/
def PieceSet.Contains (ps : PieceSet) (p : Piece) : Bool := ps &&& p.pieceSet != 0

/-- Go `NewPieceSet`: union of the singletons, with the EmptyPiece bit cleared. -/
def NewPieceSet (pieces : List Piece) : PieceSet :=
  (pieces.foldl (fun acc p => acc ||| p.pieceSet) 0) &&& 254

/-- Go `PieceSet.Len`: population count of the 8-bit mask. -/
def PieceSet.Len (ps : PieceSet) : Nat :=
  ((List.range 8).filter (fun i => ps.testBit i)).length

/-- Go `PieceSet.ToSlice` / `Slice`: the contained pieces in canonical order. -/
def PieceSet.Slice (ps : PieceSet) : List Piece :=
  NonemptyPieces.filter (fun p => ps.Contains p)

/-- Go `PieceSet.Inverted`: `(ps ^ 255) &^ (1 << EmptyPiece)`. -/
def PieceSet.Inverted (ps : PieceSet) : PieceSet := (ps ^^^ 255) &&& 254

/-- Modelled from the spec: `AllPieceSets` is not under src/ (only callers and
its test are). Following section 4.A it enumerates all 128 subsets of the 7
non-empty pieces; the enumeration pattern matches `allBags` in the bot package. -/
def AllPieceSets : List PieceSet :=
  (List.range 128).map (fun idx =>
    NonemptyPieces.foldl (fun ps p =>
      if idx.testBit (p - 1) then ps.Add p else ps) 0)

/-- Go `Seq`: up to 7 pieces packed 4 bits per slot in a `uint32`,
with an explicit `uint8` length. -/
structure Seq where
  encoding : Nat
  len : Nat
  deriving DecidableEq

/-- The all-zero `Seq{}` value. -/
def Seq.empty : Seq := ⟨0, 0⟩

/-- Packing loop of Go `NewSeq`: `encoding += uint32(p) << (4*idx)`. -/
def seqEncode : List Piece → Nat → Nat
  | [], _ => 0
  | p :: rest, idx => (p <<< (4 * idx)) + seqEncode rest (idx + 1)

/-- Go `NewSeq`: errors when the slice is longer than 7 or contains an
EmptyPiece; otherwise packs the pieces. -/
def NewSeq (pieces : List Piece) : Except String Seq :=
  if pieces.length > 7 then .error "len(pieces) must be 7 or less"
  else if pieces.contains EmptyPiece then .error "Seq cannot contain EmptyPiece"
  else .ok ⟨seqEncode pieces 0 % 2 ^ 32, pieces.length⟩

/-- Go `Seq.ToSlice`: decode `len` slots of 4 bits each. -/
def Seq.ToSlice (seq : Seq) : List Piece :=
  (List.range seq.len).map (fun idx => (seq.encoding >>> (4 * idx)) &&& 15)

/-- Go `Seq.Append`: errors at capacity 7, otherwise writes `p` (unvalidated,
so EmptyPiece is accepted) into slot `len` using `uint32` arithmetic. -/
def Seq.Append (seq : Seq) (p : Piece) : Except String Seq :=
  if seq.len ≥ 7 then .error "Seq is already at max capacity"
  else .ok ⟨(seq.encoding + (p <<< (4 * seq.len))) % 2 ^ 32, seq.len + 1⟩

/-- Well-formedness maintained by `NewSeq`: the unused high slots are zero. -/
def Seq.WF (seq : Seq) : Prop := seq.encoding < 16 ^ seq.len

instance (seq : Seq) : Decidable seq.WF := by
  unfold Seq.WF; infer_instance

/-- Modelled from the spec: `Seq.AtIndex` is not under src/ (only callers are).
Section 4.B: read the 4-bit slot `idx` of the packed word. -/
def Seq.AtIndex (seq : Seq) (idx : Nat) : Piece :=
  seq.encoding / 16 ^ idx % 16

/-- Modelled from the spec: `Seq.RemoveFirst` is not under src/ (only callers
are). Section 4.B: shift out the first slot, dropping the first element. -/
def Seq.RemoveFirst (seq : Seq) : Seq :=
  ⟨seq.encoding / 16, seq.len - 1⟩

/-- Modelled from the spec: `Seq.SetIndex` is not under src/ (only callers
are). Section 4.B: bounds-checked overwrite of the 4-bit slot `idx`; writing
one slot past the end extends the length. -/
def Seq.SetIndex (seq : Seq) (idx : Nat) (p : Piece) : Seq :=
  ⟨seq.encoding - (seq.encoding / 16 ^ idx % 16) * 16 ^ idx + (p % 16) * 16 ^ idx,
    max seq.len (idx + 1)⟩

end Tetris

namespace Tetris

/-- `SeqSet` embeds Go's `*SeqSet`: `nil` is the nil pointer, `mk` is the
struct with `hasAllSeq`, the 7-entry child array `subSeqSets` (one field per
index), and the `permBag` marker used by the permutation singletons.

The cyclic permutation graph built by `init` cannot be a finite tree, so a
permutation node stores only its bag; `Contains` and `Size` recompute its
children through `permChild` exactly as `init` linked them. `Union` and
`Intersection` read the child fields directly and are therefore faithful on
permutation-free trees (the only trees the algebra is exercised on). -/
inductive SeqSet where
  | nil
  | mk (hasAllSeq : Bool) (c1 c2 c3 c4 c5 c6 c7 : SeqSet) (permBag : Option PieceSet)
  deriving DecidableEq

/-- Go `ContainsAllSeqSet`. -/
def ContainsAllSeqSet : SeqSet := .mk true .nil .nil .nil .nil .nil .nil .nil none

/-- A fresh `new(SeqSet)`. -/
def SeqSet.fresh : SeqSet := .mk false .nil .nil .nil .nil .nil .nil .nil none

/-- `subSeqSets[i]` (0-based index, nil out of range; Go would panic there). -/
def SeqSet.sub : SeqSet → Nat → SeqSet
  | .nil, _ => .nil
  | .mk _ c1 _ _ _ _ _ _ _, 0 => c1
  | .mk _ _ c2 _ _ _ _ _ _, 1 => c2
  | .mk _ _ _ c3 _ _ _ _ _, 2 => c3
  | .mk _ _ _ _ c4 _ _ _ _, 3 => c4
  | .mk _ _ _ _ _ c5 _ _ _, 4 => c5
  | .mk _ _ _ _ _ _ c6 _ _, 5 => c6
  | .mk _ _ _ _ _ _ _ c7 _, 6 => c7
  | .mk _ _ _ _ _ _ _ _ _, _ => .nil

/-- Replace `subSeqSets[i]` (no-op out of range). -/
def SeqSet.setSub : SeqSet → Nat → SeqSet → SeqSet
  | .nil, _, _ => .nil
  | .mk h c1 c2 c3 c4 c5 c6 c7 pb, i, v =>
    match i with
    | 0 => .mk h v c2 c3 c4 c5 c6 c7 pb
    | 1 => .mk h c1 v c3 c4 c5 c6 c7 pb
    | 2 => .mk h c1 c2 v c4 c5 c6 c7 pb
    | 3 => .mk h c1 c2 c3 v c5 c6 c7 pb
    | 4 => .mk h c1 c2 c3 c4 v c6 c7 pb
    | 5 => .mk h c1 c2 c3 c4 c5 v c7 pb
    | 6 => .mk h c1 c2 c3 c4 c5 c6 v pb
    | _ => .mk h c1 c2 c3 c4 c5 c6 c7 pb

def SeqSet.hasAll : SeqSet → Bool
  | .nil => false
  | .mk h _ _ _ _ _ _ _ _ => h

def SeqSet.bag : SeqSet → Option PieceSet
  | .nil => none
  | .mk _ _ _ _ _ _ _ _ pb => pb

/-- The child the `init` loop links for permutation node of bag `b` on piece
`p`: a full bag counts as empty, and the child exists iff `p` is unused. -/
def permChild (b : PieceSet) (p : Piece) : SeqSet :=
  let b' := if b.Len = 7 then 0 else b
  if b'.Contains p then .nil
  else .mk false .nil .nil .nil .nil .nil .nil .nil (some (b'.Add p))

/-- Go `Permutations(bagUsed)`: the permutation singleton for a bag. -/
def Permutations (bagUsed : PieceSet) : SeqSet :=
  .mk false .nil .nil .nil .nil .nil .nil .nil (some bagUsed)

/-- The child reached on piece `p` (1-based): permutation nodes route through
`permChild` (their struct children were linked by `init` to exactly these
values), other nodes read `subSeqSets[p-1]`. -/
def SeqSet.childOn (s : SeqSet) (p : Piece) : SeqSet :=
  match s.bag with
  | some b => permChild b p
  | none => s.sub (p - 1)

/-- Go `SeqSet.Contains` (`seqset.go`): nil misses, `hasAllSeq` hits, the
empty sequence hits exactly the permutation nodes, otherwise recurse into
the child for the head piece. -/
def SeqSet.Contains : SeqSet → List Piece → Bool
  | s, seq =>
    match s with
    | .nil => false
    | s =>
      if s.hasAll then true
      else
        match seq with
        | [] => s.bag.isSome
        | p :: rest => (s.childOn p).Contains rest

/-- Go `SeqSet.AddPrefix` (`seqset.go`), functionally: the result tree is the
mutated receiver. A `hasAllSeq` receiver is unchanged; permutation receivers
panic in Go and are returned unchanged here (never exercised); an empty
prefix makes the node contain everything; a last piece links the shared
`ContainsAllSeqSet`; otherwise recurse into (or create) the child. -/
def SeqSet.AddPrefix : SeqSet → List Piece → SeqSet
  | .nil, _ => .nil
  | s, pre =>
    if s.hasAll then s
    else if s.bag.isSome then s
    else match pre with
      | [] => ContainsAllSeqSet
      | [p] => s.setSub (p - 1) ContainsAllSeqSet
      | p :: rest =>
        let next := if s.sub (p - 1) = .nil then SeqSet.fresh else s.sub (p - 1)
        s.setSub (p - 1) (next.AddPrefix rest)

/-- Go `SeqSet.Union` (`seqset.go`): nil is the identity, `hasAllSeq`
dominates, otherwise a fresh node with pointwise unions. Reads the struct
children directly, as the source does (faithful on permutation-free trees). -/
def SeqSet.Union : SeqSet → SeqSet → SeqSet
  | .nil, other => other
  | s, .nil => s
  | .mk h1 a1 a2 a3 a4 a5 a6 a7 _, .mk h2 b1 b2 b3 b4 b5 b6 b7 _ =>
    if h1 || h2 then ContainsAllSeqSet
    else .mk false (a1.Union b1) (a2.Union b2) (a3.Union b3) (a4.Union b4)
      (a5.Union b5) (a6.Union b6) (a7.Union b7) none

/-- Helper for `Intersection`: Go collapses a fresh node back to nil when
every child intersection came out nil. -/
def SeqSet.collapse (s : SeqSet) : SeqSet :=
  match s with
  | .nil => .nil
  | .mk h c1 c2 c3 c4 c5 c6 c7 pb =>
    if c1 = .nil ∧ c2 = .nil ∧ c3 = .nil ∧ c4 = .nil ∧ c5 = .nil ∧ c6 = .nil ∧ c7 = .nil
    then .nil else .mk h c1 c2 c3 c4 c5 c6 c7 pb

/-- Go `SeqSet.Intersection` (`seqset.go`): nil annihilates, `hasAllSeq` is
the identity, otherwise pointwise intersections collapsing to nil when all
children are nil. Reads the struct children directly, as the source does
(faithful on permutation-free trees). -/
def SeqSet.Intersection : SeqSet → SeqSet → SeqSet
  | .nil, _ => .nil
  | _, .nil => .nil
  | .mk h1 a1 a2 a3 a4 a5 a6 a7 p1, .mk h2 b1 b2 b3 b4 b5 b6 b7 p2 =>
    if h1 then .mk h2 b1 b2 b3 b4 b5 b6 b7 p2
    else if h2 then .mk h1 a1 a2 a3 a4 a5 a6 a7 p1
    else SeqSet.collapse (.mk false (a1.Intersection b1) (a2.Intersection b2)
      (a3.Intersection b3) (a4.Intersection b4) (a5.Intersection b5)
      (a6.Intersection b6) (a7.Intersection b7) none)

/-- The decrement-and-reset loop of Go `SeqSet.Size` on a permutation node:
`prod *= choices; choices--; if choices == 0 { choices = 7 }`. -/
def permSizeLoop (choices prod : Int) : Nat → Int
  | 0 => prod
  | k + 1 =>
    let prod' := prod * choices
    let c' := choices - 1
    permSizeLoop (if c' = 0 then 7 else c') prod' k

/-- Go `SeqSet.Size` (`seqset.go`): nil is 0; a permutation node counts by
the decrementing-choices formula (before the negative-length check, as in the
source); negative length is 0; `hasAllSeq` is `7^length`; otherwise the sum
over children at `length - 1`. -/
def SeqSet.Size : SeqSet → Int → Int
  | .nil, _ => 0
  | .mk h c1 c2 c3 c4 c5 c6 c7 pb, length =>
    match pb with
    | some b =>
      let choices : Int := 7 - b.Len
      permSizeLoop (if choices = 0 then 7 else choices) 1
        (if length < 0 then 0 else length.toNat)
    | none =>
      if length < 0 then 0
      else if h then 7 ^ length.toNat
      else c1.Size (length - 1) + c2.Size (length - 1) + c3.Size (length - 1) +
        c4.Size (length - 1) + c5.Size (length - 1) + c6.Size (length - 1) +
        c7.Size (length - 1)

/-- Modelled from the spec: `PrependedSeqSets` is not under src/ (only its
test and the scorer call it). Section 4.C: a new internal node whose piece-p
child is the given SeqSet for p (the EmptyPiece entry of the 8-slot input
array has no corresponding child). -/
def PrependedSeqSets (f : Nat → SeqSet) : SeqSet :=
  .mk false (f 1) (f 2) (f 3) (f 4) (f 5) (f 6) (f 7) none

/-- Permutation-freedom: the trees on which the set algebra is exercised. -/
def SeqSet.PermFree : SeqSet → Bool
  | .nil => true
  | .mk _ c1 c2 c3 c4 c5 c6 c7 pb =>
    pb.isNone && c1.PermFree && c2.PermFree && c3.PermFree && c4.PermFree &&
      c5.PermFree && c6.PermFree && c7.PermFree

end Tetris

namespace Combo4

open Tetris

/-- `Field4x4` is a 16-bit bitboard; bit `row*4+col` is the cell, row 0 on top. -/
abbrev Field4x4 := Nat

/-- Go `NewField4x4`: rows are bottom-aligned; only the last four rows count. -/
def NewField4x4 (field : List (List Bool)) : Field4x4 :=
  let startI := field.length - 1
  field.enum.foldl (fun f iv =>
    if field.length ≤ iv.1 + 4 then
      let row := 3 - (startI - iv.1)
      iv.2.enum.foldl (fun g cv =>
        if cv.2 then g ||| (1 <<< (row * 4 + cv.1)) else g) f
    else f) 0

/-- Go `Field4x4.isSet` with its bounds check. -/
def Field4x4.isSet (f : Field4x4) (row col : Nat) : Bool :=
  if row < 4 && col < 4 then f.testBit (row * 4 + col) else false

/-- Go `MirrorField4x4`: reverse the columns of every row. -/
def MirrorField4x4 (f : Field4x4) : Field4x4 :=
  NewField4x4 ((List.range 4).map (fun r =>
    [f.isSet r 3, f.isSet r 2, f.isSet r 1, f.isSet r 0]))

/-- Go constant `LeftI` (bottom row `X X X o`). -/
def LeftI : Field4x4 := 28672

/-- Go constant `RightI` (bottom row `o X X X`). -/
def RightI : Field4x4 := 57344

/-- Go `Move`: placing `Piece` on `Start` and clearing one row yields `End`. -/
structure Move where
  Start : Field4x4
  End : Field4x4
  Piece : Tetris.Piece
  deriving DecidableEq

/-- Go `State`: field, held piece (possibly empty) and the swap restriction. -/
structure State where
  Field : Field4x4
  Hold : Tetris.Piece := 0
  SwapRestricted : Bool := false
  deriving DecidableEq

end Combo4

namespace Combo4

open Tetris

/-- Literals used by the move tables (`const X, o = true, false`). -/
def X : Bool := true

/-- Literal `o` of the move tables. -/
def o : Bool := false

/-- The 70 unreflected moves of Go `AllContinuousMoves`, one block per start
field, in source order. -/
def movesNoReflect : List Move :=
  (let start := NewField4x4 [[X,X,o,o],[X,o,o,o]]
   [⟨start, start, I⟩,
    ⟨start, NewField4x4 [[o,o,o,X],[X,o,o,X]], T⟩,
    ⟨start, NewField4x4 [[X,X,X,o]], T⟩,
    ⟨start, NewField4x4 [[X,X,o,X]], L⟩,
    ⟨start, NewField4x4 [[X,X,X,o]], S⟩,
    ⟨start, NewField4x4 [[o,o,X,o],[X,o,o,X]], S⟩,
    ⟨start, NewField4x4 [[o,o,o,X],[X,o,X,o]], Z⟩,
    ⟨start, NewField4x4 [[o,X,X,o],[X,o,o,o]], Z⟩,
    ⟨start, NewField4x4 [[X,o,X,X]], O⟩]) ++
  (let start := NewField4x4 [[X,o,o,o],[X,o,o,X]]
   [⟨start, start, I⟩,
    ⟨start, NewField4x4 [[X,o,X,X]], T⟩,
    ⟨start, NewField4x4 [[o,o,X,o],[X,o,o,X]], T⟩,
    ⟨start, NewField4x4 [[o,o,o,X],[X,o,o,X]], L⟩,
    ⟨start, NewField4x4 [[X,X,o,X]], L⟩,
    ⟨start, NewField4x4 [[o,X,o,o],[X,X,o,o]], L⟩,
    ⟨start, NewField4x4 [[o,X,o,o],[X,o,o,X]], J⟩,
    ⟨start, NewField4x4 [[X,o,X,X]], S⟩,
    ⟨start, NewField4x4 [[X,X,X,o]], O⟩]) ++
  (let start := NewField4x4 [[X,o,o,o],[X,X,o,o]]
   [⟨start, start, I⟩,
    ⟨start, NewField4x4 [[X,X,X,o]], T⟩,
    ⟨start, NewField4x4 [[o,o,o,X],[X,X,o,o]], L⟩,
    ⟨start, NewField4x4 [[o,o,o,X],[X,o,o,X]], J⟩,
    ⟨start, NewField4x4 [[X,X,o,X]], J⟩,
    ⟨start, NewField4x4 [[o,X,o,o],[X,X,o,o]], J⟩,
    ⟨start, NewField4x4 [[X,X,X,o]], Z⟩,
    ⟨start, NewField4x4 [[X,o,X,X]], O⟩]) ++
  (let start := NewField4x4 [[X,X,X,o]]
   [⟨start, start, I⟩,
    ⟨start, NewField4x4 [[o,o,o,X],[o,o,X,X]], T⟩,
    ⟨start, NewField4x4 [[o,o,X,X],[o,o,o,X]], L⟩,
    ⟨start, NewField4x4 [[o,X,X,X]], J⟩,
    ⟨start, NewField4x4 [[o,o,X,o],[o,o,X,X]], S⟩,
    ⟨start, NewField4x4 [[o,o,o,X],[o,o,o,X],[o,o,o,X]], I⟩]) ++
  (let start := NewField4x4 [[X,o,o,o],[X,o,o,o],[X,o,o,o]]
   [⟨start, start, I⟩,
    ⟨start, NewField4x4 [[X,o,o,o],[X,o,X,o]], T⟩,
    ⟨start, NewField4x4 [[X,o,o,o],[X,o,o,X]], L⟩,
    ⟨start, NewField4x4 [[X,o,o,o],[X,X,o,o]], L⟩,
    ⟨start, NewField4x4 [[X,o,o,o],[X,o,o,X]], J⟩,
    ⟨start, NewField4x4 [[X,o,o,o],[X,X,o,o]], J⟩]) ++
  (let start := NewField4x4 [[X,X,o,X]]
   [⟨start, start, I⟩,
    ⟨start, NewField4x4 [[o,X,X,X]], T⟩,
    ⟨start, NewField4x4 [[o,o,X,o],[o,o,X,X]], T⟩,
    ⟨start, NewField4x4 [[X,X,X,o]], J⟩,
    ⟨start, NewField4x4 [[o,o,X,X],[o,o,X,o]], J⟩,
    ⟨start, NewField4x4 [[o,o,o,X],[o,o,X,X]], Z⟩]) ++
  (let start := NewField4x4 [[o,o,o,X],[X,X,o,o]]
   [⟨start, start, I⟩,
    ⟨start, NewField4x4 [[o,X,o,o],[X,X,o,o]], T⟩,
    ⟨start, NewField4x4 [[X,o,o,o],[X,X,o,o]], J⟩,
    ⟨start, NewField4x4 [[X,X,X,o]], J⟩,
    ⟨start, NewField4x4 [[o,X,X,X]], Z⟩]) ++
  (let start := NewField4x4 [[X,X,o,o],[o,X,o,o]]
   [⟨start, start, I⟩,
    ⟨start, NewField4x4 [[o,o,o,X],[o,X,o,X]], T⟩,
    ⟨start, NewField4x4 [[o,o,o,X],[o,X,X,o]], Z⟩,
    ⟨start, NewField4x4 [[o,X,X,X]], O⟩]) ++
  (let start := NewField4x4 [[X,o,o,o],[X,o,X,o]]
   [⟨start, start, I⟩,
    ⟨start, NewField4x4 [[X,X,X,o]], L⟩,
    ⟨start, NewField4x4 [[o,o,o,X],[X,o,X,o]], L⟩,
    ⟨start, NewField4x4 [[X,o,X,X]], J⟩]) ++
  (let start := NewField4x4 [[o,X,o,o],[X,X,o,o]]
   [⟨start, start, I⟩,
    ⟨start, NewField4x4 [[o,o,o,X],[o,X,o,X]], J⟩,
    ⟨start, NewField4x4 [[o,X,X,X]], O⟩]) ++
  (let start := NewField4x4 [[X,o,o,o],[o,X,X,o]]
   [⟨start, start, I⟩,
    ⟨start, NewField4x4 [[o,o,o,X],[o,X,X,o]], L⟩,
    ⟨start, NewField4x4 [[o,X,X,X]], J⟩]) ++
  (let start := NewField4x4 [[X,o,o,o],[o,X,o,X]]
   [⟨start, start, I⟩,
    ⟨start, NewField4x4 [[o,X,X,X]], T⟩,
    ⟨start, NewField4x4 [[o,o,o,X],[o,X,o,X]], L⟩]) ++
  (let start := NewField4x4 [[o,X,o,o],[X,o,o,X]]
   [⟨start, start, I⟩,
    ⟨start, NewField4x4 [[o,X,X,X]], S⟩]) ++
  (let start := NewField4x4 [[o,X,X,o],[X,o,o,o]]
   [⟨start, start, I⟩,
    ⟨start, NewField4x4 [[o,X,X,X]], L⟩])

/-- Go `Mirror` on pieces: exchanges L and J, S and Z. -/
def MirrorPiece (p : Piece) : Piece :=
  if p = L then J else if p = J then L
  else if p = S then Z else if p = Z then S else p

/-- Go `AllContinuousMoves`: the 70 unreflected moves followed by their
mirror images. -/
def AllContinuousMoves : List Move :=
  movesNoReflect ++ movesNoReflect.map (fun m =>
    ⟨MirrorField4x4 m.Start, MirrorField4x4 m.End, MirrorPiece m.Piece⟩)

/-- The distinct start fields of the move list (`startFields` in `NewNFA`). -/
def startFields (moves : List Move) : List Field4x4 :=
  (moves.map Move.Start).dedup

/-- `moves[start][piece]` in `NewNFA`: end fields of the grouped moves, in
catalogue order. -/
def movesFor (moves : List Move) (f : Field4x4) (p : Piece) : List Field4x4 :=
  (moves.filter (fun m => m.Start = f && m.Piece = p)).map Move.End

/-- The transition relation `trans[piece][state]` that Go `NewNFA` builds,
read back as a function. Entries exist only for start fields of the
catalogue; an empty-hold state offers the hold transition plus the plays, a
swap-restricted state only the plays, and a swappable hold state the plays
plus the swap-and-play transitions. Piece 0 indexes the nil map (`trans[0]`),
and holds outside 1..7 never appear as keys. -/
def NextStates (moves : List Move) (s : State) (p : Piece) : List State :=
  if ¬ (s.Field ∈ startFields moves) then []
  else if p = 0 ∨ 8 ≤ p then []
  else if s.Hold = 0 then
    if s.SwapRestricted then []
    else ⟨s.Field, p, true⟩ :: (movesFor moves s.Field p).map (fun e => ⟨e, 0, false⟩)
  else if 8 ≤ s.Hold then []
  else if s.SwapRestricted then
    (movesFor moves s.Field p).map (fun e => ⟨e, s.Hold, false⟩)
  else
    (movesFor moves s.Field p).map (fun e => ⟨e, s.Hold, false⟩) ++
      (movesFor moves s.Field s.Hold).map (fun e => ⟨e, p, false⟩)

/-- One step of Go `EndStates`: the union over the current set of the next
states on the incoming piece. `next` abstracts the `trans` lookup. -/
def stepNFA (next : State → Piece → List State) (cur : List State) (p : Piece) :
    List State :=
  (cur.flatMap (fun s => next s p)).dedup

/-- Go `EndStates`: double-buffer loop returning the final set and the number
of consumed pieces; stops early (returning the pre-step set and its index)
when the next set is empty. -/
def EndStates (next : State → Piece → List State) (cur : List State) :
    List Piece → List State × Nat
  | [] => (cur, 0)
  | p :: rest =>
    let nx := stepNFA next cur p
    if nx.isEmpty then (cur, 0)
    else
      let r := EndStates next nx rest
      (r.1, r.2 + 1)

end Combo4

namespace Bot

open Tetris Combo4

/-- The intersection loop in `NewNFAScorer`: `intersxn := ContainsAllSeqSet`
followed by `intersxn = intersxn.Intersection(...)` over a list. -/
def interFold (l : List SeqSet) : SeqSet :=
  l.foldl SeqSet.Intersection ContainsAllSeqSet

/-- The `inviable` table built by Go `NewNFAScorer(nfa, permLen)`, read as a
function of the step count `n` and the state. Step 0 is the empty map (every
lookup nil); step `n+1` prepends, for each piece `p`, the intersection of the
step-`n` sets over `nfa.NextStates(state, p)` (the `trans[0]` lookup for the
EmptyPiece slot yields no successors, and the spec-modelled
`PrependedSeqSets` drops that slot). `next` abstracts the `trans` lookup; on
the states of the NFA it agrees with the map-based iteration because every
transition target is again a state of the NFA. -/
def inviableN (next : State → Piece → List State) : Nat → State → SeqSet
  | 0, _ => .nil
  | n + 1, s =>
    PrependedSeqSets (fun p => interFold ((next s p).map (inviableN next n)))

/-- The bit-packing of Go `NFAScorer.Score`:
`int64(consumed<<50) - int64(invalidPermutations<<10) + int64(numStates)`
(no `int64` overflow within the documented component ranges). -/
def packScore (consumed invalidPermutations numStates : Int) : Int :=
  consumed * 2 ^ 50 - invalidPermutations * 2 ^ 10 + numStates

/-- Lexicographic ordering on the tuple `(consumed, -invalidPermutations,
numStates)`, larger-first priorities as documented in `Score`. -/
def scoreLexGT (c1 i1 n1 c2 i2 n2 : Int) : Prop :=
  c1 > c2 ∨ (c1 = c2 ∧ (-i1 > -i2 ∨ (-i1 = -i2 ∧ n1 > n2)))

/-- A policy capability (`bot.Policy`): given the initial state, current
piece, preview and bag, choose the next state (or none). -/
def Policy : Type :=
  State → Piece → List Piece → PieceSet → Option State

/-- The mutable loop variables of Go `StartGame`: the last policy answer, the
current piece, the preview window and the bag. -/
structure DriverState where
  state : Option State
  current : Piece
  next : List Piece
  bag : PieceSet

/-- One iteration of the `for p := range input` loop of Go `StartGame`
(`policy.go`): a dead driver (previous answer nil) emits nil and does not
advance; otherwise the preview shifts, the bag resets when it was full, an
impossible piece for the (reset) bag panics, and the policy is consulted
with the updated triple. The emitted value and the recorded state are the
same policy answer. -/
def stepGame (pol : Policy) (d : DriverState) (p : Piece) :
    Except String (Option State × DriverState) :=
  match d.state with
  | none => .ok (none, d)
  | some st =>
    let shifted := match d.next with
      | [] => (p, ([] : List Piece))
      | c :: rest => (c, rest ++ [p])
    let bag0 := if PieceSet.Len d.bag = 7 then 0 else d.bag
    if bag0.Contains p then .error "impossible piece for bag state"
    else
      let bag := bag0.Add p
      let newState := pol st shifted.1 shifted.2 bag
      .ok (newState, ⟨newState, shifted.1, shifted.2, bag⟩)

/-- The whole input loop of Go `StartGame`: one emission per input piece, in
order; the loop ends (and the output channel closes) exactly when the input
list is exhausted. A panic aborts the stream with the error. -/
def runGame (pol : Policy) (d : DriverState) :
    List Piece → Except String (List (Option State) × DriverState)
  | [] => .ok ([], d)
  | p :: rest =>
    match stepGame pol d p with
    | .error e => .error e
    | .ok (out, d') =>
      match runGame pol d' rest with
      | .error e => .error e
      | .ok (outs, dF) => .ok (out :: outs, dF)

/-- The bag precomputation at the top of Go `StartGame`: start from the
current piece's singleton, add each preview piece, resetting whenever the
bag fills. -/
def initialBag (current : Piece) (next : List Piece) : PieceSet :=
  next.foldl (fun bag n =>
    let b := bag.Add n
    if PieceSet.Len b = 7 then 0 else b) current.pieceSet

/-- Go `StartGame`: the initial emission before any input is read, then the
input loop. -/
def StartGame (pol : Policy) (initial : Field4x4) (current : Piece)
    (next : List Piece) (input : List Piece) : Except String (List (Option State)) :=
  let bag := initialBag current next
  let st := pol ⟨initial, 0, false⟩ current next bag
  match runGame pol ⟨st, current, next, bag⟩ input with
  | .error e => .error e
  | .ok r => .ok (st :: r.1)

/-- Go `GameState` (`bot/mdp.go`). -/
structure GameState where
  State : Combo4.State
  Current : Piece
  Preview : Seq
  BagUsed : PieceSet
  deriving DecidableEq

/-- The loop body of Go `MDP.possibilities` (`bot/mdp.go`): the successor
game state of `cur` under chosen next state `choice` when the newly revealed
piece is `p`. -/
def nextGameState (previewLen : Nat) (cur : GameState) (choice : State)
    (p : Piece) : GameState :=
  let bag := if PieceSet.Len cur.BagUsed = 7 then 0 else cur.BagUsed
  let newBag := if PieceSet.Len cur.BagUsed = 7 then p.pieceSet else bag.Add p
  { State := choice
    Current := cur.Preview.AtIndex 0
    Preview := cur.Preview.RemoveFirst.SetIndex (previewLen - 1) p
    BagUsed := newBag }

/-- The range of the `possibilities` loop: the pieces of the (reset-if-full)
bag's inversion, in canonical order. -/
def possibleNextPieces (bagUsed : PieceSet) : List Piece :=
  (if PieceSet.Len bagUsed = 7 then 0 else bagUsed).Inverted.Slice

/-- Go `MDP.possibilities` (`bot/mdp.go`): one successor per piece the
(reset-if-full) bag has not used. -/
def possibilities (previewLen : Nat) (cur : GameState) (choice : State) :
    List GameState :=
  (possibleNextPieces cur.BagUsed).map (nextGameState previewLen cur choice)

/-- Go `MDP.calcValue` (`bot/mdp.go`): `1 + totalVal/len(poss)` with Go's
truncating `int` division. The value map with its zero default is abstracted
as a total function. -/
def calcValue (value : GameState → Int) (previewLen : Nat) (cur : GameState)
    (choice : State) : Int :=
  let poss := possibilities previewLen cur choice
  1 + Int.tdiv ((poss.map value).sum) poss.length

end Bot

namespace Bot

open Tetris Combo4

/-- The next-piece range exactly as the spec words it: the pieces not in
`bag_used`, or all 7 pieces when `bag_used` is full. Compared against the
code's `bag.Inverted().Slice()` enumeration. -/
def specNextPieces (bagUsed : PieceSet) : List Piece :=
  if PieceSet.Len bagUsed = 7 then NonemptyPieces
  else NonemptyPieces.filter (fun p => !(bagUsed.Contains p))

/-- A policy that never finds a move; used to exercise the driver loop. -/
def nullPolicy : Policy := fun _ _ _ _ => none

/-- A policy that always stays put; used to exercise the driver loop. -/
def stayPolicy : Policy := fun st _ _ _ => some st

end Bot

/-! ## Claim theorems -/

open Tetris Combo4 Bot

/-- C4: for score tuples within the documented bit ranges (consumed below
2^13, invalid permutations below 2^40, state count below 2^10), the packed
64-bit score of `NFAScorer.Score` is strictly greater exactly when the tuple
`(consumed, -invalidPermutations, numStates)` is lexicographically greater. -/
theorem packScore_gt_iff_lex (c1 i1 n1 c2 i2 n2 : Int)
    (hc1 : 0 ≤ c1) (hc1u : c1 < 2 ^ 13) (hi1 : 0 ≤ i1) (hi1u : i1 < 2 ^ 40)
    (hn1 : 0 ≤ n1) (hn1u : n1 < 2 ^ 10)
    (hc2 : 0 ≤ c2) (hc2u : c2 < 2 ^ 13) (hi2 : 0 ≤ i2) (hi2u : i2 < 2 ^ 40)
    (hn2 : 0 ≤ n2) (hn2u : n2 < 2 ^ 10) :
    packScore c1 i1 n1 > packScore c2 i2 n2 ↔ scoreLexGT c1 i1 n1 c2 i2 n2 := by
  simp only [packScore, scoreLexGT]
  norm_num
  omega

/-- Witness for C4 at a concrete pair of tuples: one extra consumed piece
outweighs any in-range permutation deficit. -/
theorem packScore_gt_iff_lex_witness :
    packScore 5 1099511627775 0 > packScore 4 0 1023 :=
  (packScore_gt_iff_lex 5 1099511627775 0 4 0 1023
    (by norm_num) (by norm_num) (by norm_num) (by norm_num) (by norm_num)
    (by norm_num) (by norm_num) (by norm_num) (by norm_num) (by norm_num)
    (by norm_num) (by norm_num)).mpr (by left; norm_num)

set_option maxRecDepth 40000 in
/-- C6: every one of the 128 bag states enumerated by `AllPieceSets` has a
permutation SeqSet counting exactly 5040 sequences of length 7. -/
theorem permutations_size_5040 :
    ∀ b ∈ AllPieceSets, (Permutations b).Size 7 = 5040 := by decide

/-- Witness for C6 at the empty bag. -/
theorem permutations_size_5040_witness : (Permutations 0).Size 7 = 5040 :=
  permutations_size_5040 0 (by decide)

set_option maxRecDepth 40000 in
/-- C3: on the NFA built from `AllContinuousMoves`, starting from the single
state with field `LeftI`, the sequence `[S, O, L]` consumes all 3 pieces and
ends in exactly the three calibration states, while `[J, O, S]` consumes
exactly 2 pieces and ends in exactly the one swap-restricted state holding O. -/
theorem endStates_calibration :
    (EndStates (NextStates AllContinuousMoves) [⟨LeftI, 0, false⟩] [S, O, L]).2 = 3 ∧
    (EndStates (NextStates AllContinuousMoves) [⟨LeftI, 0, false⟩] [S, O, L]).1.Perm
      [⟨NewField4x4 [[X, X, X, o]], L, true⟩,
       ⟨NewField4x4 [[X, o, o, o], [X, o, X, o]], O, false⟩,
       ⟨NewField4x4 [[o, o, X, X], [o, o, o, X]], 0, false⟩] ∧
    (EndStates (NextStates AllContinuousMoves) [⟨LeftI, 0, false⟩] [J, O, S]).2 = 2 ∧
    (EndStates (NextStates AllContinuousMoves) [⟨LeftI, 0, false⟩] [J, O, S]).1.Perm
      [⟨NewField4x4 [[o, X, X, X]], O, true⟩] := by
  refine ⟨by decide, by decide, by decide, by decide⟩

/-- C10: for a well-formed sequence, `Seq.Append` errors exactly when the
sequence already holds 7 pieces; below capacity it succeeds for every piece
tag including the EmptyPiece, growing the length by one and writing `p` into
the new last slot — while `NewSeq` rejects any slice containing EmptyPiece. -/
theorem seq_append_spec (s : Seq) (p : Piece) (hwf : s.WF) (hlen : s.len ≤ 7)
    (hp : p ≤ 7) :
    ((∃ e, s.Append p = .error e) ↔ s.len = 7) ∧
    (s.len < 7 → ∃ s2, s.Append p = .ok s2 ∧ s2.len = s.len + 1 ∧
      (s2.encoding >>> (4 * s.len)) &&& 15 = p) ∧
    (∀ l : List Piece, EmptyPiece ∈ l → ∃ e, NewSeq l = .error e) := by
  refine ⟨?_, ?_, ?_⟩
  · unfold Seq.Append
    split
    · exact ⟨fun _ => by omega, fun _ => ⟨_, rfl⟩⟩
    · exact ⟨fun ⟨e, he⟩ => by simp at he, fun h => by omega⟩
  · intro h7
    unfold Seq.Append
    rw [if_neg (by omega)]
    refine ⟨_, rfl, rfl, ?_⟩
    show ((s.encoding + (p <<< (4 * s.len))) % 2 ^ 32) >>> (4 * s.len) &&& 15 = p
    have hwf' : s.encoding < 2 ^ (4 * s.len) := by
      have h16 : (16 : Nat) ^ s.len = 2 ^ (4 * s.len) := by
        rw [Nat.pow_mul]
      rw [← h16]; exact hwf
    rw [Nat.shiftLeft_eq, Nat.shiftRight_eq_div_pow]
    have hsmall : s.encoding + p * 2 ^ (4 * s.len) < 2 ^ 32 := by
      have h1 : s.encoding < 2 ^ 24 :=
        Nat.lt_of_lt_of_le hwf' (Nat.pow_le_pow_right (by norm_num) (by omega))
      have h2 : p * 2 ^ (4 * s.len) ≤ 7 * 2 ^ 24 :=
        Nat.mul_le_mul hp (Nat.pow_le_pow_right (by norm_num) (by omega))
      have h3 := Nat.add_lt_add_of_lt_of_le h1 h2
      exact Nat.lt_of_lt_of_le h3 (by norm_num)
    rw [Nat.mod_eq_of_lt hsmall]
    rw [Nat.add_mul_div_right _ _ (Nat.pos_pow_of_pos _ (by norm_num))]
    rw [Nat.div_eq_of_lt hwf', Nat.zero_add]
    have hmask := Nat.and_pow_two_sub_one_eq_mod p 4
    norm_num at hmask
    rw [hmask]
    exact Nat.mod_eq_of_lt (Nat.lt_of_le_of_lt hp (by norm_num))
  · intro l h0
    unfold NewSeq
    split
    · exact ⟨_, rfl⟩
    · rw [if_pos (List.elem_eq_true_of_mem h0)]
      exact ⟨_, rfl⟩

/-- Witness for C10: appending the EmptyPiece to the well-formed two-piece
sequence `[T, O]` succeeds and stores tag 0 in slot 2. -/
theorem seq_append_spec_witness :
    ∃ s2, Seq.Append ⟨97, 2⟩ 0 = .ok s2 ∧ s2.len = 2 + 1 ∧
      (s2.encoding >>> (4 * 2)) &&& 15 = 0 :=
  (seq_append_spec ⟨97, 2⟩ 0 (by decide) (by decide) (by decide)).2.1 (by decide)

/-- C9: while the previous answer was non-nil, a driver step first treats a
full bag as empty, then panics exactly when the (possibly reset) bag already
contains the revealed piece; otherwise it proceeds with the piece added to
the reset bag. -/
theorem driver_step_panic_iff (pol : Policy) (d : DriverState) (p : Piece)
    (st : State) (hst : d.state = some st) :
    ((∃ e, stepGame pol d p = .error e) ↔
      (if PieceSet.Len d.bag = 7 then (0 : PieceSet) else d.bag).Contains p = true) ∧
    ((if PieceSet.Len d.bag = 7 then (0 : PieceSet) else d.bag).Contains p = false →
      ∃ out d2, stepGame pol d p = .ok (out, d2) ∧
        d2.bag = (if PieceSet.Len d.bag = 7 then (0 : PieceSet) else d.bag).Add p) := by
  obtain ⟨dst, dc, dn, db⟩ := d
  change dst = some st at hst
  subst hst
  have key : stepGame pol ⟨some st, dc, dn, db⟩ p =
      (if (if PieceSet.Len db = 7 then (0 : PieceSet) else db).Contains p = true
       then .error "impossible piece for bag state"
       else
        let shifted := match dn with
          | [] => (p, ([] : List Piece))
          | c :: rest => (c, rest ++ [p])
        let bag := (if PieceSet.Len db = 7 then (0 : PieceSet) else db).Add p
        let newState := pol st shifted.1 shifted.2 bag
        .ok (newState, ⟨newState, shifted.1, shifted.2, bag⟩)) := rfl
  by_cases hb : (if PieceSet.Len db = 7 then (0 : PieceSet) else db).Contains p = true
  · rw [if_pos hb] at key
    refine ⟨⟨fun _ => hb, fun _ => ⟨_, key⟩⟩, fun hfalse => ?_⟩
    rw [hfalse] at hb
    exact absurd hb (by simp)
  · rw [if_neg hb] at key
    refine ⟨⟨fun he => ?_, fun htrue => absurd htrue hb⟩, fun _ => ⟨_, _, key, rfl⟩⟩
    obtain ⟨e, he⟩ := he
    rw [key] at he
    exact absurd he (by simp)

/-- Witness for C9: with a live driver holding bag `{T}`, revealing T panics
and revealing O proceeds with bag `{T, O}`. -/
theorem driver_step_panic_iff_witness :
    (∃ e, stepGame nullPolicy ⟨some ⟨LeftI, 0, false⟩, T, [], Piece.pieceSet T⟩ T = .error e) ∧
    (∃ out d2,
      stepGame nullPolicy ⟨some ⟨LeftI, 0, false⟩, T, [], Piece.pieceSet T⟩ O = .ok (out, d2) ∧
      d2.bag = PieceSet.Add (Piece.pieceSet T) O) := by
  constructor
  · exact (driver_step_panic_iff nullPolicy _ T ⟨LeftI, 0, false⟩ rfl).1.mpr (by decide)
  · obtain ⟨out, d2, hok, hbag⟩ :=
      (driver_step_panic_iff nullPolicy
        ⟨some ⟨LeftI, 0, false⟩, T, [], Piece.pieceSet T⟩ O ⟨LeftI, 0, false⟩ rfl).2 (by decide)
    exact ⟨out, d2, hok, hbag⟩

/-- C8: a driver whose previous answer was nil emits nil for every further
input piece without advancing its state, never stops early (one successful
emission per input, the stream ending only with the input), and every
successful step records exactly the emitted value as the new state — so
nil, once emitted, persists. -/
theorem driver_after_nil (pol : Policy) (d : DriverState) (input : List Piece) :
    (d.state = none → runGame pol d input = .ok (List.replicate input.length none, d)) ∧
    (∀ p out d2, stepGame pol d p = .ok (out, d2) → d2.state = out) := by
  constructor
  · intro hd
    induction input with
    | nil => simp [runGame]
    | cons p rest ih =>
      have hstep : stepGame pol d p = .ok (none, d) := by
        obtain ⟨dst, dc, dn, db⟩ := d
        change dst = none at hd
        subst hd
        rfl
      simp only [runGame, hstep, ih]
      simp [List.replicate_succ]
  · intro p out d2 hstep
    obtain ⟨dst, dc, dn, db⟩ := d
    cases dst with
    | none =>
      simp only [stepGame] at hstep
      cases hstep
      rfl
    | some st =>
      simp only [stepGame] at hstep
      by_cases hb : (if PieceSet.Len db = 7 then (0 : PieceSet) else db).Contains p = true
      · rw [hb] at hstep
        simp at hstep
      · rw [Bool.not_eq_true] at hb
        rw [hb] at hstep
        simp at hstep
        obtain ⟨h1, h2⟩ := hstep
        rw [← h2, ← h1]

/-- Witness for C8: a dead driver maps two inputs to two nils and keeps its
state; the step invariant applied to a successful concrete step. -/
theorem driver_after_nil_witness :
    runGame nullPolicy ⟨none, T, [O], 3⟩ [S, Z] =
      .ok (List.replicate 2 none, ⟨none, T, [O], 3⟩) :=
  (driver_after_nil nullPolicy ⟨none, T, [O], 3⟩ [S, Z]).1 rfl


namespace Tetris

/-- `ContainsAllSeqSet` contains every sequence. -/
theorem SeqSet.contains_containsAll (x : List Piece) :
    ContainsAllSeqSet.Contains x = true := by
  cases x <;> rfl

/-- The nil SeqSet contains nothing. -/
theorem SeqSet.contains_nilSet (x : List Piece) : SeqSet.nil.Contains x = false := by
  cases x <;> rfl

/-- Unfolding `Contains` on a node and the empty sequence. -/
theorem SeqSet.contains_mk_nil (h : Bool) (c1 c2 c3 c4 c5 c6 c7 : SeqSet)
    (pb : Option PieceSet) :
    (SeqSet.mk h c1 c2 c3 c4 c5 c6 c7 pb).Contains [] =
      (if h then true else pb.isSome) := rfl

/-- Unfolding `Contains` on a node and a non-empty sequence. -/
theorem SeqSet.contains_mk_cons (h : Bool) (c1 c2 c3 c4 c5 c6 c7 : SeqSet)
    (pb : Option PieceSet) (p : Piece) (rest : List Piece) :
    (SeqSet.mk h c1 c2 c3 c4 c5 c6 c7 pb).Contains (p :: rest) =
      (if h then true
       else ((SeqSet.mk h c1 c2 c3 c4 c5 c6 c7 pb).childOn p).Contains rest) := rfl

/-- On a bag-free node, `childOn` is the plain array read. -/
theorem SeqSet.childOn_mk_none (h : Bool) (c1 c2 c3 c4 c5 c6 c7 : SeqSet)
    (p : Piece) :
    (SeqSet.mk h c1 c2 c3 c4 c5 c6 c7 none).childOn p =
      (SeqSet.mk h c1 c2 c3 c4 c5 c6 c7 none).sub (p - 1) := rfl

theorem SeqSet.inter_nil_left (b : SeqSet) :
    SeqSet.nil.Intersection b = SeqSet.nil := by cases b <;> rfl

theorem SeqSet.inter_nil_right (a : SeqSet) :
    a.Intersection SeqSet.nil = SeqSet.nil := by cases a <;> rfl

theorem SeqSet.union_nil_left (b : SeqSet) : SeqSet.nil.Union b = b := by
  cases b <;> rfl

theorem SeqSet.union_nil_right (a : SeqSet) : a.Union SeqSet.nil = a := by
  cases a <;> rfl

/-- Unfolding `Intersection` on two nodes. -/
theorem SeqSet.inter_mk_mk (h1 h2 : Bool) (a1 a2 a3 a4 a5 a6 a7 : SeqSet)
    (b1 b2 b3 b4 b5 b6 b7 : SeqSet) (p1 p2 : Option PieceSet) :
    (SeqSet.mk h1 a1 a2 a3 a4 a5 a6 a7 p1).Intersection
        (SeqSet.mk h2 b1 b2 b3 b4 b5 b6 b7 p2) =
      (if h1 then SeqSet.mk h2 b1 b2 b3 b4 b5 b6 b7 p2
       else if h2 then SeqSet.mk h1 a1 a2 a3 a4 a5 a6 a7 p1
       else SeqSet.collapse (.mk false (a1.Intersection b1) (a2.Intersection b2)
        (a3.Intersection b3) (a4.Intersection b4) (a5.Intersection b5)
        (a6.Intersection b6) (a7.Intersection b7) none)) := rfl

/-- Unfolding `Union` on two nodes. -/
theorem SeqSet.union_mk_mk (h1 h2 : Bool) (a1 a2 a3 a4 a5 a6 a7 : SeqSet)
    (b1 b2 b3 b4 b5 b6 b7 : SeqSet) (p1 p2 : Option PieceSet) :
    (SeqSet.mk h1 a1 a2 a3 a4 a5 a6 a7 p1).Union
        (SeqSet.mk h2 b1 b2 b3 b4 b5 b6 b7 p2) =
      (if h1 || h2 then ContainsAllSeqSet
       else .mk false (a1.Union b1) (a2.Union b2) (a3.Union b3) (a4.Union b4)
        (a5.Union b5) (a6.Union b6) (a7.Union b7) none) := rfl

/-- Children of a permutation-free tree are permutation-free. -/
theorem SeqSet.permFree_sub {s : SeqSet} (hs : s.PermFree = true) (i : Nat) :
    (s.sub i).PermFree = true := by
  cases s with
  | nil => rfl
  | mk h c1 c2 c3 c4 c5 c6 c7 pb =>
    simp only [SeqSet.PermFree, Bool.and_eq_true] at hs
    rcases i with _ | _ | _ | _ | _ | _ | _ | i <;>
      simp only [SeqSet.sub] <;> tauto

/-- The permutation-freedom of a node, componentwise. -/
theorem SeqSet.permFree_mk_iff (h : Bool) (c1 c2 c3 c4 c5 c6 c7 : SeqSet)
    (pb : Option PieceSet) :
    (SeqSet.mk h c1 c2 c3 c4 c5 c6 c7 pb).PermFree = true ↔
      pb = none ∧ c1.PermFree = true ∧ c2.PermFree = true ∧ c3.PermFree = true ∧
        c4.PermFree = true ∧ c5.PermFree = true ∧ c6.PermFree = true ∧
        c7.PermFree = true := by
  simp only [SeqSet.PermFree, Bool.and_eq_true, Option.isNone_iff_eq_none]
  tauto

/-- The node children built by `Intersection`, read back index by index. -/
theorem SeqSet.sub_inter_children (a1 a2 a3 a4 a5 a6 a7 : SeqSet)
    (b1 b2 b3 b4 b5 b6 b7 : SeqSet) (i : Nat) :
    (SeqSet.mk false (a1.Intersection b1) (a2.Intersection b2)
        (a3.Intersection b3) (a4.Intersection b4) (a5.Intersection b5)
        (a6.Intersection b6) (a7.Intersection b7)
        (none : Option PieceSet)).sub i =
      ((SeqSet.mk false a1 a2 a3 a4 a5 a6 a7 (none : Option PieceSet)).sub i).Intersection
        ((SeqSet.mk false b1 b2 b3 b4 b5 b6 b7 (none : Option PieceSet)).sub i) := by
  rcases i with _ | _ | _ | _ | _ | _ | _ | i <;>
    simp [SeqSet.sub, SeqSet.inter_nil_left]

/-- The node children built by `Union`, read back index by index. -/
theorem SeqSet.sub_union_children (a1 a2 a3 a4 a5 a6 a7 : SeqSet)
    (b1 b2 b3 b4 b5 b6 b7 : SeqSet) (i : Nat) :
    (SeqSet.mk false (a1.Union b1) (a2.Union b2) (a3.Union b3) (a4.Union b4)
        (a5.Union b5) (a6.Union b6) (a7.Union b7)
        (none : Option PieceSet)).sub i =
      ((SeqSet.mk false a1 a2 a3 a4 a5 a6 a7 (none : Option PieceSet)).sub i).Union
        ((SeqSet.mk false b1 b2 b3 b4 b5 b6 b7 (none : Option PieceSet)).sub i) := by
  rcases i with _ | _ | _ | _ | _ | _ | _ | i <;>
    simp [SeqSet.sub, SeqSet.union_nil_left]

/-- Collapsing a fresh intersection node does not change membership. -/
theorem SeqSet.contains_collapse (c1 c2 c3 c4 c5 c6 c7 : SeqSet) (x : List Piece) :
    (SeqSet.collapse (.mk false c1 c2 c3 c4 c5 c6 c7 none)).Contains x =
      (SeqSet.mk false c1 c2 c3 c4 c5 c6 c7 none).Contains x := by
  simp only [SeqSet.collapse]
  split
  · next hall =>
    obtain ⟨e1, e2, e3, e4, e5, e6, e7⟩ := hall
    subst e1; subst e2; subst e3; subst e4; subst e5; subst e6; subst e7
    cases x with
    | nil => rw [SeqSet.contains_nilSet, SeqSet.contains_mk_nil]; simp
    | cons p rest =>
      rw [SeqSet.contains_nilSet, SeqSet.contains_mk_cons, SeqSet.childOn_mk_none]
      have hsub : (SeqSet.mk false .nil .nil .nil .nil .nil .nil .nil
          (none : Option PieceSet)).sub (p - 1) = SeqSet.nil := by
        rcases (p - 1) with _ | _ | _ | _ | _ | _ | _ | i <;> rfl
      rw [hsub, SeqSet.contains_nilSet]
      simp
  · rfl

/-- `Contains` distributes over `Intersection` on permutation-free trees. -/
theorem SeqSet.contains_intersection (x : List Piece) :
    ∀ (a b : SeqSet), ValidSeq x → a.PermFree = true → b.PermFree = true →
      (a.Intersection b).Contains x = (a.Contains x && b.Contains x) := by
  induction x with
  | nil =>
    intro a b _ ha hb
    cases a with
    | nil => simp [SeqSet.inter_nil_left, SeqSet.contains_nilSet]
    | mk h1 a1 a2 a3 a4 a5 a6 a7 p1 =>
      cases b with
      | nil => simp [SeqSet.inter_nil_right, SeqSet.contains_nilSet]
      | mk h2 b1 b2 b3 b4 b5 b6 b7 p2 =>
        obtain ⟨hp1, -⟩ := (SeqSet.permFree_mk_iff _ _ _ _ _ _ _ _ _).mp ha
        obtain ⟨hp2, -⟩ := (SeqSet.permFree_mk_iff _ _ _ _ _ _ _ _ _).mp hb
        subst hp1; subst hp2
        rw [SeqSet.inter_mk_mk]
        cases h1 with
        | true => simp [SeqSet.contains_mk_nil]
        | false =>
          cases h2 with
          | true => simp [SeqSet.contains_mk_nil]
          | false =>
            simp only [Bool.false_eq_true, if_false]
            rw [SeqSet.contains_collapse]
            simp [SeqSet.contains_mk_nil]
  | cons p rest ih =>
    intro a b hx ha hb
    have hrest : ValidSeq rest := fun q hq => hx q (by simp [hq])
    cases a with
    | nil => simp [SeqSet.inter_nil_left, SeqSet.contains_nilSet]
    | mk h1 a1 a2 a3 a4 a5 a6 a7 p1 =>
      cases b with
      | nil => simp [SeqSet.inter_nil_right, SeqSet.contains_nilSet]
      | mk h2 b1 b2 b3 b4 b5 b6 b7 p2 =>
        obtain ⟨hp1, -⟩ := (SeqSet.permFree_mk_iff _ _ _ _ _ _ _ _ _).mp ha
        obtain ⟨hp2, -⟩ := (SeqSet.permFree_mk_iff _ _ _ _ _ _ _ _ _).mp hb
        subst hp1; subst hp2
        rw [SeqSet.inter_mk_mk]
        cases h1 with
        | true => simp [SeqSet.contains_mk_cons]
        | false =>
          cases h2 with
          | true => simp [SeqSet.contains_mk_cons]
          | false =>
            simp only [Bool.false_eq_true, if_false]
            rw [SeqSet.contains_collapse]
            rw [SeqSet.contains_mk_cons, SeqSet.contains_mk_cons, SeqSet.contains_mk_cons]
            simp only [Bool.false_eq_true, if_false]
            rw [SeqSet.childOn_mk_none, SeqSet.childOn_mk_none, SeqSet.childOn_mk_none,
              SeqSet.sub_inter_children]
            exact ih _ _ hrest (SeqSet.permFree_sub ha _) (SeqSet.permFree_sub hb _)

/-- `Contains` distributes over `Union` on permutation-free trees. -/
theorem SeqSet.contains_union (x : List Piece) :
    ∀ (a b : SeqSet), ValidSeq x → a.PermFree = true → b.PermFree = true →
      (a.Union b).Contains x = (a.Contains x || b.Contains x) := by
  induction x with
  | nil =>
    intro a b _ ha hb
    cases a with
    | nil => simp [SeqSet.union_nil_left, SeqSet.contains_nilSet]
    | mk h1 a1 a2 a3 a4 a5 a6 a7 p1 =>
      cases b with
      | nil => simp [SeqSet.union_nil_right, SeqSet.contains_nilSet]
      | mk h2 b1 b2 b3 b4 b5 b6 b7 p2 =>
        obtain ⟨hp1, -⟩ := (SeqSet.permFree_mk_iff _ _ _ _ _ _ _ _ _).mp ha
        obtain ⟨hp2, -⟩ := (SeqSet.permFree_mk_iff _ _ _ _ _ _ _ _ _).mp hb
        subst hp1; subst hp2
        rw [SeqSet.union_mk_mk]
        cases h1 with
        | true => simp [SeqSet.contains_mk_nil, SeqSet.contains_containsAll]
        | false =>
          cases h2 with
          | true => simp [SeqSet.contains_mk_nil, SeqSet.contains_containsAll]
          | false => simp [SeqSet.contains_mk_nil]
  | cons p rest ih =>
    intro a b hx ha hb
    have hrest : ValidSeq rest := fun q hq => hx q (by simp [hq])
    cases a with
    | nil => simp [SeqSet.union_nil_left, SeqSet.contains_nilSet]
    | mk h1 a1 a2 a3 a4 a5 a6 a7 p1 =>
      cases b with
      | nil => simp [SeqSet.union_nil_right, SeqSet.contains_nilSet]
      | mk h2 b1 b2 b3 b4 b5 b6 b7 p2 =>
        obtain ⟨hp1, -⟩ := (SeqSet.permFree_mk_iff _ _ _ _ _ _ _ _ _).mp ha
        obtain ⟨hp2, -⟩ := (SeqSet.permFree_mk_iff _ _ _ _ _ _ _ _ _).mp hb
        subst hp1; subst hp2
        rw [SeqSet.union_mk_mk]
        cases h1 with
        | true => simp [SeqSet.contains_mk_cons, SeqSet.contains_containsAll]
        | false =>
          cases h2 with
          | true => simp [SeqSet.contains_mk_cons, SeqSet.contains_containsAll]
          | false =>
            simp only [Bool.false_eq_true, Bool.or_false, if_false]
            rw [SeqSet.contains_mk_cons, SeqSet.contains_mk_cons, SeqSet.contains_mk_cons]
            simp only [Bool.false_eq_true, if_false]
            rw [SeqSet.childOn_mk_none, SeqSet.childOn_mk_none, SeqSet.childOn_mk_none,
              SeqSet.sub_union_children]
            exact ih _ _ hrest (SeqSet.permFree_sub ha _) (SeqSet.permFree_sub hb _)

end Tetris

namespace Tetris

/-- `ContainsAllSeqSet` is permutation-free. -/
theorem SeqSet.permFree_containsAll : ContainsAllSeqSet.PermFree = true := rfl

/-- A fresh node is permutation-free. -/
theorem SeqSet.permFree_fresh : SeqSet.fresh.PermFree = true := rfl

/-- Collapsing preserves permutation-freedom. -/
theorem SeqSet.permFree_collapse {z : SeqSet} (hz : z.PermFree = true) :
    z.collapse.PermFree = true := by
  cases z with
  | nil => rfl
  | mk h c1 c2 c3 c4 c5 c6 c7 pb =>
    simp only [SeqSet.collapse]
    split
    · rfl
    · exact hz

/-- `Intersection` preserves permutation-freedom. -/
theorem SeqSet.permFree_intersection :
    ∀ (a b : SeqSet), a.PermFree = true → b.PermFree = true →
      (a.Intersection b).PermFree = true := by
  intro a
  induction a with
  | nil =>
    intro b _ _
    rw [SeqSet.inter_nil_left]; rfl
  | mk h1 a1 a2 a3 a4 a5 a6 a7 p1 ih1 ih2 ih3 ih4 ih5 ih6 ih7 =>
    intro b ha hb
    cases b with
    | nil => rw [SeqSet.inter_nil_right]; rfl
    | mk h2 b1 b2 b3 b4 b5 b6 b7 p2 =>
      obtain ⟨hp1, ha1, ha2, ha3, ha4, ha5, ha6, ha7⟩ :=
        (SeqSet.permFree_mk_iff _ _ _ _ _ _ _ _ _).mp ha
      obtain ⟨hp2, hb1, hb2, hb3, hb4, hb5, hb6, hb7⟩ :=
        (SeqSet.permFree_mk_iff _ _ _ _ _ _ _ _ _).mp hb
      subst hp1; subst hp2
      rw [SeqSet.inter_mk_mk]
      cases h1 with
      | true => simpa using hb
      | false =>
        cases h2 with
        | true => simpa using ha
        | false =>
          simp only [Bool.false_eq_true, if_false]
          apply SeqSet.permFree_collapse
          rw [SeqSet.permFree_mk_iff]
          exact ⟨rfl, ih1 _ ha1 hb1, ih2 _ ha2 hb2, ih3 _ ha3 hb3, ih4 _ ha4 hb4,
            ih5 _ ha5 hb5, ih6 _ ha6 hb6, ih7 _ ha7 hb7⟩

/-- The intersection fold of the scorer preserves permutation-freedom. -/
theorem SeqSet.permFree_foldl_inter :
    ∀ (l : List SeqSet) (acc : SeqSet), acc.PermFree = true →
      (∀ a ∈ l, a.PermFree = true) →
      (l.foldl SeqSet.Intersection acc).PermFree = true := by
  intro l
  induction l with
  | nil => intro acc hacc _; exact hacc
  | cons a l ih =>
    intro acc hacc hl
    rw [List.foldl_cons]
    exact ih _ (SeqSet.permFree_intersection _ _ hacc (hl a (by simp)))
      (fun q hq => hl q (by simp [hq]))

/-- Membership in the intersection fold of the scorer. -/
theorem SeqSet.contains_foldl_inter (x : List Piece) (hx : ValidSeq x) :
    ∀ (l : List SeqSet) (acc : SeqSet), acc.PermFree = true →
      (∀ a ∈ l, a.PermFree = true) →
      (l.foldl SeqSet.Intersection acc).Contains x =
        (acc.Contains x && l.all (fun a => a.Contains x)) := by
  intro l
  induction l with
  | nil => intro acc _ _; simp
  | cons a l ih =>
    intro acc hacc hl
    rw [List.foldl_cons,
      ih _ (SeqSet.permFree_intersection _ _ hacc (hl a (by simp)))
        (fun q hq => hl q (by simp [hq])),
      SeqSet.contains_intersection x _ _ hx hacc (hl a (by simp))]
    simp [Bool.and_assoc]

end Tetris

/-- C5: on finite permutation-free prefix tries, union and intersection of
SeqSets are membership-wise union and intersection, for every sequence of
non-empty pieces. -/
theorem seqset_union_intersection_contains (a b : Tetris.SeqSet) (x : List Piece)
    (ha : a.PermFree = true) (hb : b.PermFree = true) (hx : ValidSeq x) :
    ((a.Union b).Contains x = (a.Contains x || b.Contains x)) ∧
    ((a.Intersection b).Contains x = (a.Contains x && b.Contains x)) :=
  ⟨Tetris.SeqSet.contains_union x a b hx ha hb,
   Tetris.SeqSet.contains_intersection x a b hx ha hb⟩

/-- Witness for C5: the tries with prefixes `[I, J]` and `[I]`, probed on the
sequence `[I, J, O]`. -/
theorem seqset_union_intersection_contains_witness :
    (((SeqSet.fresh.AddPrefix [I, J]).Union (SeqSet.fresh.AddPrefix [I])).Contains [I, J, O]
        = ((SeqSet.fresh.AddPrefix [I, J]).Contains [I, J, O] ||
           (SeqSet.fresh.AddPrefix [I]).Contains [I, J, O])) ∧
    (((SeqSet.fresh.AddPrefix [I, J]).Intersection (SeqSet.fresh.AddPrefix [I])).Contains [I, J, O]
        = ((SeqSet.fresh.AddPrefix [I, J]).Contains [I, J, O] &&
           (SeqSet.fresh.AddPrefix [I]).Contains [I, J, O])) :=
  seqset_union_intersection_contains (SeqSet.fresh.AddPrefix [I, J])
    (SeqSet.fresh.AddPrefix [I]) [I, J, O] (by decide) (by decide) (by decide)

namespace Tetris

/-- Unfolding `AddPrefix` on a node and a single-piece prefix. -/
theorem SeqSet.addPrefix_mk_single (h : Bool) (c1 c2 c3 c4 c5 c6 c7 : SeqSet)
    (pb : Option PieceSet) (p : Piece) :
    (SeqSet.mk h c1 c2 c3 c4 c5 c6 c7 pb).AddPrefix [p] =
      (if h then SeqSet.mk h c1 c2 c3 c4 c5 c6 c7 pb
       else if pb.isSome then SeqSet.mk h c1 c2 c3 c4 c5 c6 c7 pb
       else (SeqSet.mk h c1 c2 c3 c4 c5 c6 c7 pb).setSub (p - 1) ContainsAllSeqSet) := rfl

/-- Unfolding `AddPrefix` on a node and a prefix of two or more pieces. -/
theorem SeqSet.addPrefix_mk_cons2 (h : Bool) (c1 c2 c3 c4 c5 c6 c7 : SeqSet)
    (pb : Option PieceSet) (p q : Piece) (rest : List Piece) :
    (SeqSet.mk h c1 c2 c3 c4 c5 c6 c7 pb).AddPrefix (p :: q :: rest) =
      (if h then SeqSet.mk h c1 c2 c3 c4 c5 c6 c7 pb
       else if pb.isSome then SeqSet.mk h c1 c2 c3 c4 c5 c6 c7 pb
       else (SeqSet.mk h c1 c2 c3 c4 c5 c6 c7 pb).setSub (p - 1)
        ((if (SeqSet.mk h c1 c2 c3 c4 c5 c6 c7 pb).sub (p - 1) = .nil
          then SeqSet.fresh
          else (SeqSet.mk h c1 c2 c3 c4 c5 c6 c7 pb).sub (p - 1)).AddPrefix
          (q :: rest))) := rfl

/-- After `AddPrefix`, the prefix itself and all its extensions are members,
for any permutation-free non-nil receiver. -/
theorem SeqSet.addPrefix_contains_aux :
    ∀ (s : List Piece) (r : SeqSet) (t : List Piece), r.PermFree = true →
      r ≠ SeqSet.nil → s ≠ [] → ValidSeq s → s <+: t →
      (r.AddPrefix s).Contains t = true := by
  intro s
  induction s with
  | nil => intro r t _ _ hne _ _; exact absurd rfl hne
  | cons p rest ih =>
    intro r t hpf hrnil _ hv hpre
    obtain ⟨u, rfl⟩ := hpre
    obtain ⟨hp1, hp7⟩ := hv p (by simp)
    cases r with
    | nil => exact absurd rfl hrnil
    | mk h c1 c2 c3 c4 c5 c6 c7 pb =>
      obtain ⟨hpb, -⟩ := (SeqSet.permFree_mk_iff _ _ _ _ _ _ _ _ _).mp hpf
      subst hpb
      cases rest with
      | nil =>
        rw [SeqSet.addPrefix_mk_single]
        cases h with
        | true =>
          rw [if_pos rfl]
          show (SeqSet.mk true c1 c2 c3 c4 c5 c6 c7 none).Contains ([p] ++ u) = true
          rw [List.cons_append, SeqSet.contains_mk_cons]
          simp
        | false =>
          simp only [Bool.false_eq_true, if_false, Option.isSome_none]
          interval_cases p <;>
            simp [SeqSet.setSub, SeqSet.contains_mk_cons, SeqSet.childOn_mk_none,
              SeqSet.sub, SeqSet.contains_containsAll]
      | cons q rest2 =>
        rw [SeqSet.addPrefix_mk_cons2]
        cases h with
        | true =>
          rw [if_pos rfl]
          show (SeqSet.mk true c1 c2 c3 c4 c5 c6 c7 none).Contains
            ((p :: q :: rest2) ++ u) = true
          rw [List.cons_append, SeqSet.contains_mk_cons]
          simp
        | false =>
          simp only [Bool.false_eq_true, if_false, Option.isSome_none]
          have hvr : ValidSeq (q :: rest2) := fun w hw => hv w (by simp [hw])
          have hrec : ∀ z : SeqSet, z.PermFree = true →
              ((if z = SeqSet.nil then SeqSet.fresh else z).AddPrefix
                (q :: rest2)).Contains ((q :: rest2) ++ u) = true := by
            intro z hz
            by_cases hzn : z = SeqSet.nil
            · rw [if_pos hzn]
              exact ih SeqSet.fresh _ SeqSet.permFree_fresh (by decide) (by simp)
                hvr ⟨u, rfl⟩
            · rw [if_neg hzn]
              exact ih z _ hz hzn (by simp) hvr ⟨u, rfl⟩
          interval_cases p <;>
            simp only [SeqSet.setSub, SeqSet.sub, List.cons_append,
              SeqSet.contains_mk_cons, Bool.false_eq_true, if_false,
              SeqSet.childOn_mk_none] <;>
            exact hrec _ (by
              have hall := SeqSet.permFree_sub hpf
              first
              | exact hall 0 | exact hall 1 | exact hall 2 | exact hall 3
              | exact hall 4 | exact hall 5 | exact hall 6)

end Tetris

/-- C7: adding a non-empty prefix `s` to a fresh SeqSet makes `s` itself a
member, along with every extension of `s`. -/
theorem addPrefix_fresh_contains (s : List Piece) (hs : s ≠ [])
    (hv : ValidSeq s) :
    (SeqSet.fresh.AddPrefix s).Contains s = true ∧
    ∀ t, s <+: t → (SeqSet.fresh.AddPrefix s).Contains t = true :=
  ⟨Tetris.SeqSet.addPrefix_contains_aux s SeqSet.fresh s
      Tetris.SeqSet.permFree_fresh (by decide) hs hv List.prefix_rfl,
   fun t ht => Tetris.SeqSet.addPrefix_contains_aux s SeqSet.fresh t
      Tetris.SeqSet.permFree_fresh (by decide) hs hv ht⟩

/-- Witness for C7 on the prefix `[S, Z]` and its extension `[S, Z, T]`. -/
theorem addPrefix_fresh_contains_witness :
    (SeqSet.fresh.AddPrefix [S, Z]).Contains [S, Z] = true ∧
    (SeqSet.fresh.AddPrefix [S, Z]).Contains [S, Z, T] = true :=
  ⟨(addPrefix_fresh_contains [S, Z] (by decide) (by decide)).1,
   (addPrefix_fresh_contains [S, Z] (by decide) (by decide)).2 [S, Z, T]
     ⟨[T], rfl⟩⟩

namespace Combo4

/-- Membership in one NFA step over a set. -/
theorem mem_stepNFA (next : State → Tetris.Piece → List State) (cur : List State)
    (p : Tetris.Piece) (u : State) :
    u ∈ stepNFA next cur p ↔ ∃ s ∈ cur, u ∈ next s p := by
  simp [stepNFA, List.mem_dedup, List.mem_flatMap]

/-- A step from a singleton is membership-wise the transition list. -/
theorem mem_stepNFA_singleton (next : State → Tetris.Piece → List State)
    (s : State) (p : Tetris.Piece) (u : State) :
    u ∈ stepNFA next [s] p ↔ u ∈ next s p := by
  simp [mem_stepNFA]

theorem endStates_nil (next : State → Tetris.Piece → List State)
    (cur : List State) : EndStates next cur [] = (cur, 0) := rfl

theorem endStates_cons (next : State → Tetris.Piece → List State)
    (cur : List State) (p : Tetris.Piece) (rest : List Piece) :
    EndStates next cur (p :: rest) =
      (if (stepNFA next cur p).isEmpty then (cur, 0)
       else ((EndStates next (stepNFA next cur p) rest).1,
             (EndStates next (stepNFA next cur p) rest).2 + 1)) := rfl

/-- The consumed count only depends on the membership of the start set. -/
theorem endStates_consumed_congr (next : State → Tetris.Piece → List State)
    (q : List Piece) :
    ∀ cur cur' : List State, (∀ u, u ∈ cur ↔ u ∈ cur') →
      (EndStates next cur q).2 = (EndStates next cur' q).2 := by
  induction q with
  | nil => intro cur cur' _; rfl
  | cons p rest ih =>
    intro cur cur' hmem
    have hstep : ∀ u, u ∈ stepNFA next cur p ↔ u ∈ stepNFA next cur' p := by
      intro u
      rw [mem_stepNFA, mem_stepNFA]
      constructor
      · rintro ⟨s, hs, hu⟩; exact ⟨s, (hmem s).mp hs, hu⟩
      · rintro ⟨s, hs, hu⟩; exact ⟨s, (hmem s).mpr hs, hu⟩
    rw [endStates_cons, endStates_cons]
    by_cases h1 : stepNFA next cur p = []
    · have h2 : stepNFA next cur' p = [] := by
        rw [List.eq_nil_iff_forall_not_mem]
        intro u hu
        exact (List.eq_nil_iff_forall_not_mem.mp h1 u) ((hstep u).mpr hu)
      rw [h1, h2]
      rfl
    · have h2 : stepNFA next cur' p ≠ [] := by
        intro h2
        apply h1
        rw [List.eq_nil_iff_forall_not_mem]
        intro u hu
        exact (List.eq_nil_iff_forall_not_mem.mp h2 u) ((hstep u).mp hu)
      rw [if_neg (by simpa [List.isEmpty_iff] using h1),
        if_neg (by simpa [List.isEmpty_iff] using h2)]
      simp only
      rw [ih _ _ hstep]

/-- Over a non-empty start set, dying within `m` steps is equivalent to every
singleton start dying within `m` steps (the reachable sets once empty stay
empty, so the union dies exactly when every branch dies). -/
theorem endStates_consumed_lt_iff (next : State → Tetris.Piece → List State)
    (q : List Piece) :
    ∀ (cur : List State) (m : Nat), cur ≠ [] →
      ((EndStates next cur q).2 < m ↔
        ∀ s ∈ cur, (EndStates next [s] q).2 < m) := by
  induction q with
  | nil =>
    intro cur m hcur
    obtain ⟨s0, hs0⟩ := List.exists_mem_of_ne_nil cur hcur
    simp only [endStates_nil]
    constructor
    · intro h _ _; exact h
    · intro h; exact h s0 hs0
  | cons p rest ih =>
    intro cur m hcur
    obtain ⟨s0, hs0⟩ := List.exists_mem_of_ne_nil cur hcur
    rw [endStates_cons]
    by_cases hN : stepNFA next cur p = []
    · have hsingle : ∀ s ∈ cur, stepNFA next [s] p = [] := by
        intro s hs
        rw [List.eq_nil_iff_forall_not_mem]
        intro u hu
        exact (List.eq_nil_iff_forall_not_mem.mp hN u)
          ((mem_stepNFA ..).mpr ⟨s, hs, (mem_stepNFA_singleton ..).mp hu⟩)
      rw [if_pos (by simpa [List.isEmpty_iff] using hN)]
      constructor
      · intro h s hs
        rw [endStates_cons, if_pos (by simpa [List.isEmpty_iff] using hsingle s hs)]
        exact h
      · intro h
        have := h s0 hs0
        rw [endStates_cons,
          if_pos (by simpa [List.isEmpty_iff] using hsingle s0 hs0)] at this
        exact this
    · rw [if_neg (by simpa [List.isEmpty_iff] using hN)]
      cases m with
      | zero =>
        simp only
        constructor
        · intro h
          exact absurd h (by omega)
        · intro h
          have h0 := h s0 hs0
          omega
      | succ m =>
        have hcommon : ((EndStates next (stepNFA next cur p) rest).2 < m ↔
            ∀ s ∈ cur, ∀ u ∈ next s p, (EndStates next [u] rest).2 < m) := by
          rw [ih (stepNFA next cur p) m hN]
          constructor
          · intro h s hs u hu
            exact h u ((mem_stepNFA ..).mpr ⟨s, hs, hu⟩)
          · intro h u hu
            obtain ⟨s, hs, hu'⟩ := (mem_stepNFA ..).mp hu
            exact h s hs u hu'
        constructor
        · intro h s hs
          rw [endStates_cons]
          by_cases hNs : stepNFA next [s] p = []
          · rw [if_pos (by simpa [List.isEmpty_iff] using hNs)]
            omega
          · rw [if_neg (by simpa [List.isEmpty_iff] using hNs)]
            simp only
            have hlt : (EndStates next (stepNFA next [s] p) rest).2 < m := by
              rw [ih (stepNFA next [s] p) m hNs]
              intro u hu
              exact (hcommon.mp (by omega)) s hs u
                ((mem_stepNFA_singleton ..).mp hu)
            omega
        · intro h
          have hmain : (EndStates next (stepNFA next cur p) rest).2 < m := by
            rw [hcommon]
            intro s hs u hu
            have hNs : stepNFA next [s] p ≠ [] := by
              intro hnil
              exact (List.eq_nil_iff_forall_not_mem.mp hnil u)
                ((mem_stepNFA_singleton ..).mpr hu)
            have := h s hs
            rw [endStates_cons, if_neg (by simpa [List.isEmpty_iff] using hNs)] at this
            simp only at this
            have hlt : (EndStates next (stepNFA next [s] p) rest).2 < m := by omega
            rw [ih (stepNFA next [s] p) m hNs] at hlt
            exact hlt u ((mem_stepNFA_singleton ..).mpr hu)
          omega

end Combo4

namespace Bot

open Tetris Combo4

/-- Unfolding one construction step of the scorer table. -/
theorem inviableN_succ (next : State → Piece → List State) (n : Nat) (s : State) :
    inviableN next (n + 1) s =
      PrependedSeqSets (fun p => interFold ((next s p).map (inviableN next n))) := rfl

/-- `PrependedSeqSets` looks up the child for a non-empty piece. -/
theorem contains_prepended_cons (f : Nat → SeqSet) (p : Piece) (rest : List Piece)
    (hp : ValidPiece p) :
    ((PrependedSeqSets f).Contains (p :: rest)) = ((f p).Contains rest) := by
  obtain ⟨hp1, hp7⟩ := hp
  unfold PrependedSeqSets
  rw [SeqSet.contains_mk_cons]
  simp only [Bool.false_eq_true, if_false]
  rw [SeqSet.childOn_mk_none]
  interval_cases p <;> rfl

/-- Every table entry the scorer builds is permutation-free. -/
theorem permFree_inviableN (next : State → Piece → List State) :
    ∀ (n : Nat) (s : State), (inviableN next n s).PermFree = true := by
  intro n
  induction n with
  | zero => intro s; rfl
  | succ n ih =>
    intro s
    rw [inviableN_succ]
    unfold PrependedSeqSets
    rw [SeqSet.permFree_mk_iff]
    refine ⟨rfl, ?_, ?_, ?_, ?_, ?_, ?_, ?_⟩ <;>
      · apply SeqSet.permFree_foldl_inter _ _ SeqSet.permFree_containsAll
        intro a ha
        obtain ⟨t, -, rfl⟩ := List.mem_map.mp ha
        exact ih t

/-- Membership in the scorer's intersection loop over permutation-free sets. -/
theorem contains_interFold (l : List SeqSet) (x : List Piece) (hx : ValidSeq x)
    (hl : ∀ a ∈ l, a.PermFree = true) :
    (interFold l).Contains x = l.all (fun a => a.Contains x) := by
  unfold interFold
  rw [SeqSet.contains_foldl_inter x hx l ContainsAllSeqSet
    SeqSet.permFree_containsAll hl, SeqSet.contains_containsAll]
  simp

/-- The heart of C1: a sequence of exactly `n` non-empty pieces sits in the
step-`n` inviable set of a state exactly when the NFA cannot consume all of
it starting from that state alone. -/
theorem inviable_iff_aux (next : State → Piece → List State) :
    ∀ (q : List Piece) (s : State), ValidSeq q →
      ((inviableN next q.length s).Contains q = true ↔
        (EndStates next [s] q).2 < q.length) := by
  intro q
  induction q with
  | nil =>
    intro s _
    rw [show inviableN next ([] : List Piece).length s = SeqSet.nil from rfl,
      SeqSet.contains_nilSet, Combo4.endStates_nil]
    simp
  | cons p rest ih =>
    intro s hq
    have hp : ValidPiece p := hq p (by simp)
    have hrest : ValidSeq rest := fun w hw => hq w (by simp [hw])
    have hmap : ∀ a ∈ (next s p).map (inviableN next rest.length),
        a.PermFree = true := by
      intro a ha
      obtain ⟨t, -, rfl⟩ := List.mem_map.mp ha
      exact permFree_inviableN next rest.length t
    have hleft : (inviableN next (p :: rest).length s).Contains (p :: rest) =
        ((next s p).map (inviableN next rest.length)).all
          (fun a => a.Contains rest) := by
      rw [show (p :: rest).length = rest.length + 1 from rfl, inviableN_succ,
        contains_prepended_cons _ _ _ hp, contains_interFold _ _ hrest hmap]
    rw [hleft]
    have hall : (((next s p).map (inviableN next rest.length)).all
        (fun a => a.Contains rest) = true) ↔
        ∀ t ∈ next s p, (EndStates next [t] rest).2 < rest.length := by
      rw [List.all_eq_true]
      constructor
      · intro h t ht
        exact (ih t hrest).mp (h _ (List.mem_map.mpr ⟨t, ht, rfl⟩))
      · intro h a ha
        obtain ⟨t, ht, rfl⟩ := List.mem_map.mp ha
        exact (ih t hrest).mpr (h t ht)
    rw [hall, endStates_cons]
    by_cases hN : stepNFA next [s] p = []
    · have hnil : next s p = [] := by
        rw [List.eq_nil_iff_forall_not_mem]
        intro u hu
        exact (List.eq_nil_iff_forall_not_mem.mp hN u)
          ((mem_stepNFA_singleton ..).mpr hu)
      rw [if_pos (by simpa [List.isEmpty_iff] using hN)]
      simp [hnil]
    · rw [if_neg (by simpa [List.isEmpty_iff] using hN)]
      simp only [List.length_cons]
      rw [show ∀ a b : Nat, (a + 1 < b + 1 ↔ a < b) from fun a b => by omega]
      rw [endStates_consumed_lt_iff next rest (stepNFA next [s] p) rest.length hN]
      constructor
      · intro h u hu
        exact h u ((mem_stepNFA_singleton ..).mp hu)
      · intro h t ht
        exact h t ((mem_stepNFA_singleton ..).mpr ht)

end Bot

set_option maxRecDepth 8000 in
/-- C1: for the scorer table of `NewNFAScorer` at permutation length `L ≥ 1`
over any NFA transition function, a sequence of exactly `L` non-empty pieces
is in a state's inviable set exactly when `EndStates` from that single state
consumes strictly fewer than `L` of its pieces. -/
theorem inviable_contains_iff_short_consume
    (next : Combo4.State → Piece → List Combo4.State) (L : Nat) (hL : 1 ≤ L)
    (s : Combo4.State) (q : List Piece) (hlen : q.length = L) (hq : ValidSeq q) :
    ((Bot.inviableN next L s).Contains q = true ↔
      (Combo4.EndStates next [s] q).2 < L) := by
  subst hlen
  exact Bot.inviable_iff_aux next q s hq

set_option maxRecDepth 8000 in
/-- Witness for C1 on the real NFA: from the state with field `LeftI`, the
sequence `[O, O]` cannot be fully consumed, and it is accordingly in the
length-2 inviable set. -/
theorem inviable_contains_iff_short_consume_witness :
    (Bot.inviableN (Combo4.NextStates Combo4.AllContinuousMoves) 2
      ⟨Combo4.LeftI, 0, false⟩).Contains [O, O] = true :=
  (inviable_contains_iff_short_consume (Combo4.NextStates Combo4.AllContinuousMoves)
    2 (by decide) ⟨Combo4.LeftI, 0, false⟩ [O, O] rfl (by decide)).mpr (by decide)

namespace Tetris

/-- The masked-shift nibble read of `ToSlice` is the div-mod slot read. -/
theorem nibble_eq_div_mod (x i : Nat) : (x >>> (4 * i)) &&& 15 = x / 16 ^ i % 16 := by
  rw [Nat.shiftRight_eq_div_pow]
  have h16 : (2 : Nat) ^ (4 * i) = 16 ^ i := by
    rw [Nat.pow_mul]
  rw [h16]
  have hmask := Nat.and_pow_two_sub_one_eq_mod (x / 16 ^ i) 4
  norm_num at hmask
  exact hmask

/-- `ToSlice` decodes slot by slot through `AtIndex`. -/
theorem Seq.toSlice_eq_map (seq : Seq) :
    seq.ToSlice = (List.range seq.len).map seq.AtIndex := by
  unfold Seq.ToSlice Seq.AtIndex
  exact List.map_congr_left (fun i _ => nibble_eq_div_mod seq.encoding i)

/-- Bit `p` of an inverted bag, for a non-empty piece, is the negated bit. -/
theorem PieceSet.contains_inverted (ps : PieceSet) (p : Piece) (hp : ValidPiece p) :
    ps.Inverted.Contains p = !(ps.Contains p) := by
  have hbit : ∀ x : Nat, PieceSet.Contains x p = x.testBit p := by
    intro x
    unfold PieceSet.Contains Piece.pieceSet
    rw [Nat.shiftLeft_eq, one_mul, Nat.and_two_pow]
    cases h : x.testBit p <;> simp [h, Nat.pos_pow_of_pos]
  rw [hbit, hbit]
  unfold PieceSet.Inverted
  rw [Nat.testBit_land, Nat.testBit_xor]
  have hp1 : 1 ≤ p := hp.1
  have hlt : p < 8 := Nat.lt_of_le_of_lt hp.2 (by norm_num)
  have h255 : ∀ i, i < 8 → Nat.testBit 255 i = true := by decide
  have h254 : ∀ i, i < 8 → 1 ≤ i → Nat.testBit 254 i = true := by decide
  rw [h255 p hlt, h254 p hlt hp1]
  simp

/-- The spec's wording of the next-piece range agrees with the code's
`bag.Inverted().Slice()` enumeration. -/
theorem specNextPieces_eq (bagUsed : PieceSet) :
    Bot.specNextPieces bagUsed = Bot.possibleNextPieces bagUsed := by
  unfold Bot.specNextPieces Bot.possibleNextPieces
  by_cases hfull : PieceSet.Len bagUsed = 7
  · rw [if_pos hfull, if_pos hfull]
    decide
  · rw [if_neg hfull, if_neg hfull]
    unfold PieceSet.Slice
    refine (List.filter_congr ?_).symm
    intro p hp
    have hv : ValidPiece p := by
      fin_cases hp <;> decide
    rw [PieceSet.contains_inverted bagUsed p hv]

end Tetris

namespace Tetris

/-- A non-empty sequence's first decoded element is slot 0. -/
theorem Seq.toSlice_headI (s : Seq) (hne : s.len ≠ 0) :
    s.ToSlice.headI = s.AtIndex 0 := by
  obtain ⟨k, hk⟩ : ∃ k, s.len = k + 1 := ⟨s.len - 1, by omega⟩
  rw [Seq.toSlice_eq_map, hk, List.range_succ_eq_map]
  rfl

/-- Shifting out the first slot and writing `p` one past the new end yields,
slot-wise, the tail of the original decoding followed by `p`. -/
theorem Seq.removeFirst_setIndex_toSlice (s : Seq) (p : Piece) (k : Nat)
    (hlen : s.len = k + 1) (hwf : s.WF) (hp : p < 16) :
    ((s.RemoveFirst).SetIndex k p).ToSlice = s.ToSlice.tail ++ [p] ∧
    ((s.RemoveFirst).SetIndex k p).len = k + 1 := by
  have hwf' : s.encoding < 16 ^ (k + 1) := by
    have hh := hwf
    unfold Seq.WF at hh
    rwa [hlen] at hh
  have he : s.encoding / 16 < 16 ^ k := by
    rw [Nat.div_lt_iff_lt_mul (by norm_num)]
    calc s.encoding < 16 ^ (k + 1) := hwf'
    _ = 16 ^ k * 16 := by rw [Nat.pow_succ]
  have hrf : s.RemoveFirst = ⟨s.encoding / 16, k⟩ := by
    unfold Seq.RemoveFirst
    rw [hlen]
    rfl
  have hnib : s.encoding / 16 / 16 ^ k % 16 = 0 := by
    rw [Nat.div_eq_of_lt he]
  have hset : (s.RemoveFirst).SetIndex k p =
      ⟨s.encoding / 16 + p * 16 ^ k, k + 1⟩ := by
    rw [hrf]
    unfold Seq.SetIndex
    simp only
    rw [hnib, Nat.zero_mul, Nat.sub_zero, Nat.mod_eq_of_lt hp]
    congr 1
    omega
  refine ⟨?_, by rw [hset]⟩
  rw [hset, Seq.toSlice_eq_map]
  have hslice : s.ToSlice = (List.range (k + 1)).map s.AtIndex := by
    rw [Seq.toSlice_eq_map, hlen]
  rw [hslice]
  have htail : ((List.range (k + 1)).map s.AtIndex).tail =
      (List.range k).map (fun i => s.AtIndex (i + 1)) := by
    rw [List.range_succ_eq_map, List.map_cons, List.tail_cons, List.map_map]
    rfl
  rw [htail]
  show (List.range (k + 1)).map (Seq.AtIndex ⟨s.encoding / 16 + p * 16 ^ k, k + 1⟩) =
    (List.range k).map (fun i => s.AtIndex (i + 1)) ++ [p]
  conv_lhs => rw [List.range_succ]
  rw [List.map_append]
  congr 1
  · refine List.map_congr_left ?_
    intro i hi
    have hik : i < k := List.mem_range.mp hi
    show Seq.AtIndex ⟨s.encoding / 16 + p * 16 ^ k, k + 1⟩ i = s.AtIndex (i + 1)
    unfold Seq.AtIndex
    simp only
    have hsplit : (16 : Nat) ^ k = 16 ^ (k - i - 1) * 16 * 16 ^ i := by
      rw [← Nat.pow_succ, ← Nat.pow_add]
      congr 1
      omega
    rw [hsplit, ← Nat.mul_assoc]
    rw [Nat.add_mul_div_right _ _ (Nat.pos_pow_of_pos i (by norm_num))]
    rw [← Nat.mul_assoc, Nat.add_mul_mod_self_right]
    rw [Nat.div_div_eq_div_mul]
    rw [← Nat.pow_succ']
  · show List.map _ [k] = [p]
    rw [List.map_singleton]
    congr 1
    show Seq.AtIndex ⟨s.encoding / 16 + p * 16 ^ k, k + 1⟩ k = p
    unfold Seq.AtIndex
    simp only
    rw [Nat.add_mul_div_right _ _ (Nat.pos_pow_of_pos k (by norm_num)),
      Nat.div_eq_of_lt he, Nat.zero_add, Nat.mod_eq_of_lt hp]

end Tetris

namespace Tetris

/-- Every piece the spec's next-piece range enumerates is a real piece. -/
theorem mem_specNextPieces_valid (b : PieceSet) (p : Piece)
    (hm : p ∈ Bot.specNextPieces b) : ValidPiece p := by
  unfold Bot.specNextPieces at hm
  by_cases h : PieceSet.Len b = 7
  · rw [if_pos h] at hm
    fin_cases hm <;> decide
  · rw [if_neg h] at hm
    have h1 := (List.mem_filter.mp hm).1
    fin_cases h1 <;> decide

end Tetris

/-- C2: `calcValue` is the Bellman operator: it returns `1` plus the
truncating integer division of the summed values of the successors by the
number of successors, where the revealed piece ranges over the pieces not in
`BagUsed` (over all 7 pieces when the bag is full); and each successor has
state the chosen state, current piece the head of the preview, preview the
old preview shifted left by one slot with slot `previewLen - 1` set to the
revealed piece, and bag `{p}` if the bag was full, else the bag with `p`
added. -/
theorem calcValue_bellman (value : Bot.GameState → Int) (previewLen : Nat)
    (cur : Bot.GameState) (choice : Combo4.State)
    (hpl : 1 ≤ previewLen) (hlen : cur.Preview.len = previewLen)
    (hwf : cur.Preview.WF) :
    Bot.calcValue value previewLen cur choice =
      1 + Int.tdiv ((Bot.specNextPieces cur.BagUsed).map
          (fun p => value (Bot.nextGameState previewLen cur choice p))).sum
        ((Bot.specNextPieces cur.BagUsed).length : Int) ∧
    ∀ p ∈ Bot.specNextPieces cur.BagUsed,
      (Bot.nextGameState previewLen cur choice p).State = choice ∧
      (Bot.nextGameState previewLen cur choice p).Current =
        cur.Preview.ToSlice.headI ∧
      (Bot.nextGameState previewLen cur choice p).Preview.ToSlice =
        cur.Preview.ToSlice.tail ++ [p] ∧
      (Bot.nextGameState previewLen cur choice p).BagUsed =
        (if PieceSet.Len cur.BagUsed = 7 then p.pieceSet
         else cur.BagUsed.Add p) := by
  constructor
  · have h1 : Bot.calcValue value previewLen cur choice =
        1 + Int.tdiv (((Bot.possibleNextPieces cur.BagUsed).map
            (fun p => value (Bot.nextGameState previewLen cur choice p))).sum)
          ((Bot.possibleNextPieces cur.BagUsed).length : Int) := by
      unfold Bot.calcValue Bot.possibilities
      simp only [List.map_map, List.length_map]
      rfl
    rw [h1, specNextPieces_eq]
  · intro p hm
    have hv := mem_specNextPieces_valid cur.BagUsed p hm
    have hp16 : p < 16 := Nat.lt_of_le_of_lt hv.2 (by norm_num)
    obtain ⟨k, hk⟩ : ∃ k, previewLen = k + 1 := ⟨previewLen - 1, by omega⟩
    have hlen' : cur.Preview.len = k + 1 := by rw [hlen, hk]
    have hmain := Seq.removeFirst_setIndex_toSlice cur.Preview p k hlen' hwf hp16
    refine ⟨rfl, ?_, ?_, ?_⟩
    · show cur.Preview.AtIndex 0 = cur.Preview.ToSlice.headI
      exact (Seq.toSlice_headI cur.Preview (by rw [hlen']; omega)).symm
    · show (cur.Preview.RemoveFirst.SetIndex (previewLen - 1) p).ToSlice =
        cur.Preview.ToSlice.tail ++ [p]
      have hk1 : previewLen - 1 = k := by omega
      rw [hk1]
      exact hmain.1
    · show (if PieceSet.Len cur.BagUsed = 7 then p.pieceSet
          else (if PieceSet.Len cur.BagUsed = 7 then 0 else cur.BagUsed).Add p) =
        (if PieceSet.Len cur.BagUsed = 7 then p.pieceSet else cur.BagUsed.Add p)
      by_cases h : PieceSet.Len cur.BagUsed = 7
      · rw [if_pos h, if_pos h]
      · rw [if_neg h, if_neg h, if_neg h]

/-- C2 witness: the Bellman identity instantiated at a concrete game state
(combo field `LeftI`, current `T`, preview `[S]`, bag `{T}`) under the
constant-zero value function. -/
theorem calcValue_bellman_witness :
    1 ≤ 1 ∧ (Tetris.Seq.mk 4 1).len = 1 ∧ Tetris.Seq.WF ⟨4, 1⟩ ∧
    Bot.calcValue (fun _ => (0 : Int)) 1
        ⟨⟨Combo4.LeftI, 0, false⟩, T, ⟨4, 1⟩, 2⟩ ⟨Combo4.LeftI, 0, false⟩ =
      1 + Int.tdiv ((Bot.specNextPieces (2 : PieceSet)).map
          (fun _ => (0 : Int))).sum
        ((Bot.specNextPieces (2 : PieceSet)).length : Int) :=
  ⟨by decide, rfl, by decide,
    (calcValue_bellman (fun _ => 0) 1 ⟨⟨Combo4.LeftI, 0, false⟩, T, ⟨4, 1⟩, 2⟩
      ⟨Combo4.LeftI, 0, false⟩ (by decide) rfl (by decide)).1⟩
